import Mathlib

/-
Verification of the frecency-ranked history store of SublimeFrecentHistory,
embedded from `frecent_history.py` (the fuller of the repository's two
history variants, the one the specification follows).

Modelling conventions:
- A Python dict mapping path to entry is embedded as an association list
  `List (String × Entry)` in insertion order, with key lookup returning the
  first (and in a real dict, unique) binding.  Dict mutation at an existing
  key updates the binding in place; insertion of a new key appends at the end,
  matching Python 3.7+ dict ordering.
- Python ints are `Int`; Python float arithmetic on scores is modelled by
  exact rationals `ℚ` (the score expressions `(count / age) * weight` and the
  `0.7 * len(...)` guard; for every concrete instance used in a theorem below
  the IEEE-754 double computation agrees with the exact rational one, e.g.
  `0.7 * 100` and `0.7 * 10` are exactly `70.0` and `7.0` as doubles).
- Fallible operations (a Python function that can raise) return `Except Unit`;
  `Except.error ()` marks an exception propagating to the caller.
- Impure reads of the clock and of the filesystem become explicit parameters
  (`now : Int`, and a `ReadOutcome` describing what opening and parsing the
  store file produced).
-/

/-- A history entry, `frecent_history.py` line 89:
`dict(added=now, last_seen=now, inserts=0)`. -/
structure Entry where
  added : Int
  last_seen : Int
  inserts : Int
deriving DecidableEq

/-- A history: a Python dict from path to entry, in insertion order. -/
abbrev Hist := List (String × Entry)

/-- Dict key lookup: the binding of `p`, if present (`h[p]` / `p in h`). -/
def hlookup (p : String) : Hist → Option Entry
  | [] => none
  | (q, e) :: t => if q = p then some e else hlookup p t

/-- Dict write with a combining function: if key `p` is present, replace its
value `old` by `f old e` in place; otherwise append the binding `(p, e)`.
This is the shape of both branches of `merge_histories` (lines 142-149,
`f = mergeEntry`) and of Python's `dict.update` (`f old new = new`). -/
def dict_insert_with (f : Entry → Entry → Entry) (h : Hist) (p : String) (e : Entry) : Hist :=
  if (hlookup p h).isSome then
    h.map (fun x => if x.1 = p then (x.1, f x.2 e) else x)
  else
    h ++ [(p, e)]

/-- `new_history_entry` (line 87-89): `dict(added=now, last_seen=now, inserts=0)`,
with `now` the clock reading at creation time. -/
def new_history_entry (now : Int) : Entry :=
  { added := now, last_seen := now, inserts := 0 }

/-- The mutation `entry['last_seen'] = now; entry['inserts'] += 1`
(lines 128-129). -/
def bump (now : Int) (e : Entry) : Entry :=
  { e with last_seen := now, inserts := e.inserts + 1 }

/-- The master-history effect of `record_seen_path_in_window` (lines 122-136):
`entry = master_history[path]` on a `defaultdict(new_history_entry)` fetches
the existing entry or creates a fresh one, and the entry is then bumped in
place.  The window-history aliasing and the every-50th save trigger do not
change the master entry's fields and are not modelled here. -/
def record_seen_path (h : Hist) (path : String) (now : Int) : Hist :=
  dict_insert_with (fun old _ => bump now old) h path (bump now (new_history_entry now))

/-- Repeated visit recording: fold `record_seen_path` over a list of visit
times, in order. -/
def record_visits (h : Hist) (path : String) : List Int → Hist
  | [] => h
  | t :: ts => record_visits (record_seen_path h path t) path ts

/-- Field combination of `merge_histories` (lines 145-147):
`last_seen = max`, `inserts = max`, `added = min`. -/
def mergeEntry (mergee_e merger_e : Entry) : Entry :=
  { last_seen := max mergee_e.last_seen merger_e.last_seen
    inserts := max mergee_e.inserts merger_e.inserts
    added := min mergee_e.added merger_e.added }

/-- `merge_histories` (lines 141-149): for every path of `merger_history`, in
iteration order, combine into `mergee_history` if the path is present there,
else insert the merger entry directly. -/
def merge_histories (mergee_history merger_history : Hist) : Hist :=
  merger_history.foldl (fun acc x => dict_insert_with mergeEntry acc x.1 x.2) mergee_history

/-- Python `dst.update(src)` (line 181): every binding of `src` is written
into `dst`, overwriting on key collision. -/
def dict_update (dst src : Hist) : Hist :=
  src.foldl (fun acc x => dict_insert_with (fun _ new => new) acc x.1 x.2) dst

/-- What `open(store_path)` followed by `json.load` produced. -/
inductive ReadOutcome where
  /-- `IOError`: the file is missing or unreadable. -/
  | ioError : ReadOutcome
  /-- `json.decoder.JSONDecodeError`: the file was read but is not valid JSON. -/
  | jsonError : ReadOutcome
  /-- The file was read and parsed into a history. -/
  | parsed : Hist → ReadOutcome
deriving DecidableEq

/-- `load_master_history_from_file` (lines 165-181), acting on the in-memory
master history.  The `try` block catches `IOError` only, and then leaves the
master history unchanged (log-only).  `json.decoder.JSONDecodeError` is a
`ValueError`, not an `IOError`, so a corrupt file makes `json.load` raise an
exception that propagates to the caller: embedded as `Except.error ()`.  On a
successful parse, the stored history is merged with the in-memory one
(mergee = stored, merger = in-memory, lines 177-180) and the result written
back over the in-memory master via `dict.update` (line 181). -/
def load_master_history (r : ReadOutcome) (master : Hist) : Except Unit Hist :=
  match r with
  | .ioError => .ok master
  | .jsonError => .error ()
  | .parsed stored => .ok (dict_update master (merge_histories stored master))

/-- Time-unit constants (lines 273-276). -/
def SECONDS_PER_MINUTE : ℚ := 60

/-- One hour in seconds (line 274). -/
def SECONDS_PER_HOUR : ℚ := SECONDS_PER_MINUTE * 60

/-- One day in seconds (line 275). -/
def SECONDS_PER_DAY : ℚ := SECONDS_PER_HOUR * 24

/-- One week in seconds (line 276). -/
def SECONDS_PER_WEEK : ℚ := SECONDS_PER_DAY * 7

/-- `recency_score` (lines 281-291): the tiered recency weight. -/
def recency_score (ds : ℚ) : ℚ :=
  if ds < SECONDS_PER_MINUTE then 8
  else if ds < SECONDS_PER_HOUR then 6
  else if ds < SECONDS_PER_DAY then 4
  else if ds < SECONDS_PER_WEEK then 2
  else 1

/-- `frecency` (lines 278-279): `(count / age) * recency_score(age)`. -/
def frecency (age count : ℚ) : ℚ :=
  (count / age) * recency_score age

/-- `entry_frecency` (lines 234-238): score an entry at time `now`, with the
age clamped below by 100 seconds. -/
def entry_frecency (e : Entry) (now : Int) : ℚ :=
  frecency ((max 100 (now - e.last_seen) : Int) : ℚ) (e.inserts : ℚ)

/-- `limit_entries` (lines 224-232): stable sort by descending score, keep the
first `n`.  Python's `sorted(..., reverse=True, key=score)` is a stable sort
that orders `a` before `b` whenever `score a > score b`, keeping the original
order of equal-score elements: exactly `List.mergeSort` with
`le a b = (score b ≤ score a)`. -/
def limit_entries (entries : Hist) (n : Nat) (now : Int) : Hist :=
  (entries.mergeSort
    (fun a b => decide (entry_frecency b.2 now ≤ entry_frecency a.2 now))).take n

/-- The effect of `remove_paths_to_remove` (lines 248-253) on the master
history: drop every binding whose path is in the pending-removal set. -/
def remove_paths (ps : List String) (h : Hist) : Hist :=
  h.filter (fun x => ! ps.contains x.1)

/-- The pre-save re-read (lines 186-191): a `json.decoder.JSONDecodeError`
is caught and the stored history taken to be empty. -/
def parsed_or_empty : Except Unit Hist → Hist
  | .error _ => []
  | .ok h => h

/-- `save_master_history_to_file` (lines 183-204), returning the resulting
on-disk history.  Pending removals are flushed from the master, the in-memory
snapshot is limited to `n` entries, and the snapshot is written only when its
entry count exceeds `0.7` times the on-disk entry count; otherwise the file
is left unchanged.  The on-disk content read at line 189 is used only in that
guard: no merge is performed at save time. -/
def save_master_history (storedRead : Except Unit Hist) (master : Hist)
    (toRemove : List String) (n : Nat) (now : Int) : Hist :=
  if ((limit_entries (remove_paths toRemove master) n now).length : ℚ) >
      7 / 10 * ((parsed_or_empty storedRead).length : ℚ) then
    limit_entries (remove_paths toRemove master) n now
  else
    parsed_or_empty storedRead

/-- Python float division, which raises `ZeroDivisionError` on a zero
divisor. -/
def pydiv (a b : ℚ) : Except Unit ℚ :=
  if b = 0 then .error () else .ok (a / b)

/-- The score-fraction loop body of `OpenFrecentFileCommand.run`
(lines 404-406): each returned score divided by the total, stopping with the
exception as soon as a division raises. -/
def assign_loop (total : ℚ) : List ℚ → Except Unit (List ℚ)
  | [] => .ok []
  | s :: t =>
    match pydiv s total with
    | .error e => .error e
    | .ok v =>
      match assign_loop total t with
      | .error e => .error e
      | .ok vs => .ok (v :: vs)

/-- The score normalization of `OpenFrecentFileCommand.run` (lines 404-406):
`total_score = sum(scores)` followed by the per-entry division loop. -/
def assign_score_fracs (scores : List ℚ) : Except Unit (List ℚ) :=
  assign_loop scores.sum scores

/-- Combination of two optional dict values, one per presence case. -/
def combineOpt (f : Entry → Entry → Entry) : Option Entry → Option Entry → Option Entry
  | some a, some b => some (f a b)
  | some a, none => some a
  | none, some b => some b
  | none, none => none

theorem hlookup_eq_none_iff (p : String) (h : Hist) :
    hlookup p h = none ↔ p ∉ h.map Prod.fst := by
  induction h with
  | nil => simp [hlookup]
  | cons x t ih =>
    obtain ⟨q, e⟩ := x
    by_cases hq : q = p
    · subst hq; simp [hlookup]
    · simp [hlookup, hq, ih, Ne.symm hq]

theorem hlookup_append (p : String) (h1 h2 : Hist) :
    hlookup p (h1 ++ h2) =
      match hlookup p h1 with
      | some e => some e
      | none => hlookup p h2 := by
  induction h1 with
  | nil => simp [hlookup]
  | cons x t ih =>
    by_cases hq : x.1 = p
    · simp [hlookup, hq]
    · simpa [hlookup, hq] using ih

theorem hlookup_map_update (f : Entry → Entry → Entry) (p : String) (e : Entry) (h : Hist) :
    hlookup p (h.map (fun x => if x.1 = p then (x.1, f x.2 e) else x)) =
      (hlookup p h).map (fun a => f a e) := by
  induction h with
  | nil => simp [hlookup]
  | cons x t ih =>
    obtain ⟨r, a⟩ := x
    by_cases hq : r = p
    · subst hq
      simp only [List.map_cons]
      simp [hlookup]
    · simp only [List.map_cons]
      rw [if_neg (by simpa using hq)]
      simpa [hlookup, hq] using ih

theorem hlookup_map_update_ne (f : Entry → Entry → Entry) (q : String) (e : Entry)
    (p : String) (h : Hist) (hne : q ≠ p) :
    hlookup p (h.map (fun x => if x.1 = q then (x.1, f x.2 e) else x)) = hlookup p h := by
  induction h with
  | nil => simp [hlookup]
  | cons x t ih =>
    obtain ⟨r, a⟩ := x
    simp only [List.map_cons]
    by_cases hxq : r = q
    · have hxp : r ≠ p := by rw [hxq]; exact hne
      rw [if_pos (by simpa using hxq)]
      simpa [hlookup, hxp] using ih
    · rw [if_neg (by simpa using hxq)]
      by_cases hxp : r = p
      · subst hxp; simp [hlookup]
      · simpa [hlookup, hxp] using ih

theorem hlookup_dict_insert_with_self (f : Entry → Entry → Entry) (h : Hist)
    (p : String) (e : Entry) :
    hlookup p (dict_insert_with f h p e) =
      match hlookup p h with
      | some a => some (f a e)
      | none => some e := by
  unfold dict_insert_with
  cases hh : hlookup p h with
  | some a => simp [hh, hlookup_map_update]
  | none => simp [hh, hlookup_append, hlookup]

theorem hlookup_dict_insert_with_ne (f : Entry → Entry → Entry) (h : Hist)
    (q : String) (e : Entry) (p : String) (hne : q ≠ p) :
    hlookup p (dict_insert_with f h q e) = hlookup p h := by
  unfold dict_insert_with
  cases hh : hlookup q h with
  | some a => simp [hh, hlookup_map_update_ne f q e p h hne]
  | none =>
    simp only [hh, Option.isSome_none, Bool.false_eq_true, if_false, hlookup_append]
    simp [hlookup, hne]
    cases hlookup p h <;> simp

theorem hlookup_foldl_insert (f : Entry → Entry → Entry) (merger : Hist) :
    ∀ (mergee : Hist) (p : String), (merger.map Prod.fst).Nodup →
      hlookup p (merger.foldl (fun acc x => dict_insert_with f acc x.1 x.2) mergee) =
        combineOpt f (hlookup p mergee) (hlookup p merger) := by
  induction merger with
  | nil =>
    intro mergee p _
    cases hh : hlookup p mergee <;> simp [hlookup, combineOpt, hh]
  | cons x t ih =>
    intro mergee p hnd
    obtain ⟨q, e⟩ := x
    have hnd' : (t.map Prod.fst).Nodup := (List.nodup_cons.mp (by simpa using hnd)).2
    have hqt : q ∉ t.map Prod.fst := (List.nodup_cons.mp (by simpa using hnd)).1
    simp only [List.foldl_cons]
    rw [ih _ p hnd']
    by_cases hq : q = p
    · subst hq
      have ht : hlookup q t = none := (hlookup_eq_none_iff q t).mpr hqt
      rw [hlookup_dict_insert_with_self]
      simp only [hlookup, if_pos rfl, ht]
      cases hlookup q mergee <;> simp [combineOpt]
    · rw [hlookup_dict_insert_with_ne f mergee q e p hq]
      simp [hlookup, hq]

theorem hlookup_merge_histories (mergee merger : Hist) (p : String)
    (hnd : (merger.map Prod.fst).Nodup) :
    hlookup p (merge_histories mergee merger) =
      combineOpt mergeEntry (hlookup p mergee) (hlookup p merger) :=
  hlookup_foldl_insert mergeEntry merger mergee p hnd

theorem hlookup_record_visits (path : String) (ts : List Int) :
    ∀ (h : Hist) (e : Entry), hlookup path h = some e →
      hlookup path (record_visits h path ts) =
        some ⟨e.added, ts.getLastD e.last_seen, e.inserts + (ts.length : Int)⟩ := by
  induction ts with
  | nil =>
    intro h e he
    cases e
    simpa [record_visits] using he
  | cons t ts ih =>
    intro h e he
    simp only [record_visits]
    have hstep : hlookup path (record_seen_path h path t) = some (bump t e) := by
      rw [record_seen_path, hlookup_dict_insert_with_self, he]
    rw [ih _ _ hstep]
    simp only [bump, List.getLastD_cons, List.length_cons, Option.some.injEq, Entry.mk.injEq]
    refine ⟨trivial, trivial, ?_⟩
    push_cast
    ring

/-- C4: merging two histories combines a path present in both with
`last_seen = max`, `inserts = max`, `added = min`; a path present only in the
merger is inserted with its entry unchanged; a path present only in the
mergee keeps its entry unchanged. -/
theorem merge_histories_fields (mergee merger : Hist) (p : String)
    (hnd : (merger.map Prod.fst).Nodup) :
    (∀ a b, hlookup p mergee = some a → hlookup p merger = some b →
      hlookup p (merge_histories mergee merger) =
        some ⟨min a.added b.added, max a.last_seen b.last_seen, max a.inserts b.inserts⟩)
    ∧ (hlookup p mergee = none →
      hlookup p (merge_histories mergee merger) = hlookup p merger)
    ∧ (∀ a, hlookup p mergee = some a → hlookup p merger = none →
      hlookup p (merge_histories mergee merger) = some a) := by
  refine ⟨?_, ?_, ?_⟩
  · intro a b ha hb
    rw [hlookup_merge_histories mergee merger p hnd, ha, hb]
    show some (mergeEntry a b) = _
    simp [mergeEntry]
  · intro hnone
    rw [hlookup_merge_histories mergee merger p hnd, hnone]
    cases hb : hlookup p merger <;> simp [combineOpt]
  · intro a ha hb
    rw [hlookup_merge_histories mergee merger p hnd, ha, hb]
    rfl

theorem merge_histories_fields_witness :
    hlookup "/a" (merge_histories [("/a", ⟨1000, 1000, 1⟩)] [("/a", ⟨1000, 2000, 3⟩)]) =
        some ⟨min 1000 1000, max 1000 2000, max 1 3⟩ ∧
      (⟨min 1000 1000, max 1000 2000, max 1 3⟩ : Entry) = ⟨1000, 2000, 3⟩ :=
  ⟨(merge_histories_fields [("/a", ⟨1000, 1000, 1⟩)] [("/a", ⟨1000, 2000, 3⟩)] "/a"
      (by decide)).1 ⟨1000, 1000, 1⟩ ⟨1000, 2000, 3⟩ (by decide) (by decide),
    by decide⟩

/-- C5: for a path present in both histories, merging in either order yields
the same entry (max of `last_seen`, max of `inserts`, min of `added`). -/
theorem merge_histories_comm_shared (A B : Hist) (p : String) (a b : Entry)
    (hA : (A.map Prod.fst).Nodup) (hB : (B.map Prod.fst).Nodup)
    (ha : hlookup p A = some a) (hb : hlookup p B = some b) :
    hlookup p (merge_histories A B) = hlookup p (merge_histories B A) := by
  rw [hlookup_merge_histories A B p hB, hlookup_merge_histories B A p hA, ha, hb]
  show some (mergeEntry a b) = some (mergeEntry b a)
  simp [mergeEntry, max_comm, min_comm]

theorem merge_histories_comm_shared_witness :
    hlookup "/x" (merge_histories [("/x", ⟨5, 10, 2⟩)] [("/x", ⟨3, 20, 1⟩), ("/y", ⟨1, 1, 1⟩)]) =
      hlookup "/x" (merge_histories [("/x", ⟨3, 20, 1⟩), ("/y", ⟨1, 1, 1⟩)] [("/x", ⟨5, 10, 2⟩)]) :=
  merge_histories_comm_shared [("/x", ⟨5, 10, 2⟩)] [("/x", ⟨3, 20, 1⟩), ("/y", ⟨1, 1, 1⟩)]
    "/x" ⟨5, 10, 2⟩ ⟨3, 20, 1⟩ (by decide) (by decide) (by decide) (by decide)

/-- C8: a first visit creates the entry with `added = last_seen = now` and
increments `inserts` from its creation value `0` to `0 + 1`; a repeat visit
sets `last_seen = now` and increments `inserts` by exactly one; hence `k`
recorded visits on a fresh path leave `inserts = k`, with `added` the first
visit time and `last_seen` the last visit time. -/
theorem record_visit_increments (h : Hist) (path : String) :
    (∀ now : Int, hlookup path h = none →
      hlookup path (record_seen_path h path now) = some ⟨now, now, 0 + 1⟩)
    ∧ (∀ (now : Int) (e : Entry), hlookup path h = some e →
      hlookup path (record_seen_path h path now) = some ⟨e.added, now, e.inserts + 1⟩)
    ∧ (∀ (t : Int) (ts : List Int), hlookup path h = none →
      hlookup path (record_visits h path (t :: ts)) =
        some ⟨t, ts.getLastD t, (ts.length : Int) + 1⟩) := by
  refine ⟨?_, ?_, ?_⟩
  · intro now hn
    rw [record_seen_path, hlookup_dict_insert_with_self, hn]
    rfl
  · intro now e he
    rw [record_seen_path, hlookup_dict_insert_with_self, he]
    rfl
  · intro t ts hn
    simp only [record_visits]
    have hstep : hlookup path (record_seen_path h path t) =
        some (bump t (new_history_entry t)) := by
      rw [record_seen_path, hlookup_dict_insert_with_self, hn]
    rw [hlookup_record_visits path ts _ _ hstep]
    simp only [bump, new_history_entry, Option.some.injEq, Entry.mk.injEq]
    refine ⟨trivial, trivial, by push_cast; ring⟩

theorem record_visit_increments_witness :
    hlookup "p" (record_visits [] "p" [10, 20, 30]) = some ⟨10, 30, 3⟩ := by
  have h := (record_visit_increments [] "p").2.2 10 [20, 30] (by decide)
  simpa using h

/-- C3: loading from a missing or unreadable file (an `IOError`) is caught
and leaves the in-memory master history unchanged, but loading a corrupt
(unparsable JSON) file raises: `json.load` throws `json.decoder.JSONDecodeError`,
which the `except IOError` handler of `load_master_history_from_file` does not
catch, so the exception propagates to the caller. -/
theorem load_corrupt_json_fatal (master : Hist) :
    load_master_history ReadOutcome.ioError master = Except.ok master ∧
      load_master_history ReadOutcome.jsonError master = Except.error () :=
  ⟨rfl, rfl⟩

theorem recency_score_pos (a : ℚ) : 0 < recency_score a := by
  unfold recency_score
  split_ifs <;> norm_num

theorem recency_score_antitone {a b : ℚ} (hab : a ≤ b) :
    recency_score b ≤ recency_score a := by
  unfold recency_score SECONDS_PER_WEEK SECONDS_PER_DAY SECONDS_PER_HOUR SECONDS_PER_MINUTE
  norm_num only
  split_ifs <;> linarith

/-- C7 amended: for a fixed positive visit count, the score strictly
decreases as the age increases across a tier boundary; for a fixed positive
age, the score strictly increases with the visit count.  (At visit count `0`
the score is `0` at every age, so strictness needs `1 ≤ c`; a positive age
keeps the Python division defined.) -/
theorem frecency_monotone (c a1 a2 : ℚ) :
    (1 ≤ c → 0 < a1 → a1 < a2 → recency_score a1 ≠ recency_score a2 →
      frecency a2 c < frecency a1 c)
    ∧ (0 < a1 → ∀ c2, c < c2 → frecency a1 c < frecency a1 c2) := by
  constructor
  · intro hc ha1 h12 hne
    have hcpos : 0 < c := lt_of_lt_of_le one_pos hc
    have hw : recency_score a2 ≤ recency_score a1 := recency_score_antitone (le_of_lt h12)
    have hdiv : c / a2 < c / a1 := div_lt_div_of_pos_left hcpos ha1 h12
    unfold frecency
    calc (c / a2) * recency_score a2
        < (c / a1) * recency_score a2 :=
          mul_lt_mul_of_pos_right hdiv (recency_score_pos a2)
      _ ≤ (c / a1) * recency_score a1 :=
          mul_le_mul_of_nonneg_left hw (le_of_lt (div_pos hcpos ha1))
  · intro ha1 c2 hcc
    unfold frecency
    exact mul_lt_mul_of_pos_right ((div_lt_div_iff_of_pos_right ha1).mpr hcc) (recency_score_pos a1)

theorem frecency_monotone_cex :
    (100 : ℚ) < 3600 ∧ recency_score 100 ≠ recency_score 3600 ∧
      ¬ frecency 3600 (0 : ℚ) < frecency 100 (0 : ℚ) := by
  refine ⟨by norm_num, ?_, ?_⟩
  · norm_num [recency_score, SECONDS_PER_MINUTE, SECONDS_PER_HOUR, SECONDS_PER_DAY]
  · norm_num [frecency]

theorem frecency_monotone_witness :
    (1 : ℚ) ≤ 1 ∧ recency_score 100 ≠ recency_score 3600 ∧
      frecency 3600 (1 : ℚ) < frecency 100 1 ∧ frecency 100 (1 : ℚ) < frecency 100 2 :=
  ⟨le_refl 1,
    by norm_num [recency_score, SECONDS_PER_MINUTE, SECONDS_PER_HOUR, SECONDS_PER_DAY],
    (frecency_monotone 1 100 3600).1 (le_refl 1) (by norm_num) (by norm_num)
      (by norm_num [recency_score, SECONDS_PER_MINUTE, SECONDS_PER_HOUR, SECONDS_PER_DAY]),
    (frecency_monotone 1 100 3600).2 (by norm_num) 2 (by norm_num)⟩

/-- C10: the age passed to the tier function by `entry_frecency` is clamped
to at least 100 seconds, so the recency weight actually applied when scoring
an entry is at most 6: the `age < 60 → weight 8` tier is unreachable through
entry scoring. -/
theorem entry_recency_weight_le_six (e : Entry) (now : Int) :
    recency_score ((max 100 (now - e.last_seen) : Int) : ℚ) ≤ 6 ∧
      entry_frecency e now =
        ((e.inserts : ℚ) / ((max 100 (now - e.last_seen) : Int) : ℚ)) *
          recency_score ((max 100 (now - e.last_seen) : Int) : ℚ) := by
  constructor
  · have h100 : (100 : ℚ) ≤ ((max 100 (now - e.last_seen) : Int) : ℚ) := by
      have h : (100 : Int) ≤ max 100 (now - e.last_seen) := le_max_left _ _
      exact_mod_cast h
    unfold recency_score SECONDS_PER_WEEK SECONDS_PER_DAY SECONDS_PER_HOUR SECONDS_PER_MINUTE
    norm_num only
    split_ifs <;> linarith
  · rfl

/-- C9: applying `limit_entries` twice with the same bound and time gives the
same list, in the same order, as applying it once: the first application
leaves a descending stably-sorted list of length at most `n`, which the
second application's stable sort and truncation leave unchanged. -/
theorem limit_entries_idempotent (entries : Hist) (n : Nat) (now : Int) :
    limit_entries (limit_entries entries n now) n now = limit_entries entries n now := by
  unfold limit_entries
  set le := fun (a b : String × Entry) =>
    decide (entry_frecency b.2 now ≤ entry_frecency a.2 now) with hle
  have htrans : ∀ (a b c : String × Entry), le a b → le b c → le a c := by
    intro a b c hab hbc
    simp only [hle, decide_eq_true_eq] at hab hbc ⊢
    exact le_trans hbc hab
  have htotal : ∀ (a b : String × Entry), le a b || le b a := by
    intro a b
    simp only [hle, Bool.or_eq_true, decide_eq_true_eq]
    exact le_total _ _
  have hsorted : (entries.mergeSort le).Pairwise (fun a b => le a b) :=
    List.sorted_mergeSort htrans htotal entries
  have htake : ((entries.mergeSort le).take n).Pairwise (fun a b => le a b) :=
    List.Pairwise.sublist (List.take_sublist n _) hsorted
  rw [List.mergeSort_of_sorted htake, List.take_take, min_self]

theorem hlookup_remove_paths_none (ps : List String) (h : Hist) (p : String)
    (hp : hlookup p h = none) : hlookup p (remove_paths ps h) = none := by
  rw [hlookup_eq_none_iff] at hp ⊢
  intro hmem
  apply hp
  simp only [remove_paths] at hmem
  obtain ⟨x, hx, rfl⟩ := List.mem_map.mp hmem
  exact List.mem_map.mpr ⟨x, List.mem_of_mem_filter hx, rfl⟩

theorem hlookup_limit_entries_none (m : Hist) (n : Nat) (now : Int) (p : String)
    (hp : hlookup p m = none) : hlookup p (limit_entries m n now) = none := by
  rw [hlookup_eq_none_iff] at hp ⊢
  intro hmem
  apply hp
  unfold limit_entries at hmem
  obtain ⟨x, hx, rfl⟩ := List.mem_map.mp hmem
  have hx2 := (List.take_sublist n _).subset hx
  exact List.mem_map.mpr ⟨x, List.mem_mergeSort.mp hx2, rfl⟩

theorem save_master_history_cases (storedRead : Except Unit Hist) (master : Hist)
    (toRemove : List String) (n : Nat) (now : Int) :
    (((limit_entries (remove_paths toRemove master) n now).length : ℚ) >
        7 / 10 * ((parsed_or_empty storedRead).length : ℚ) →
      save_master_history storedRead master toRemove n now =
        limit_entries (remove_paths toRemove master) n now)
    ∧ (¬ ((limit_entries (remove_paths toRemove master) n now).length : ℚ) >
        7 / 10 * ((parsed_or_empty storedRead).length : ℚ) →
      save_master_history storedRead master toRemove n now = parsed_or_empty storedRead) := by
  constructor <;> intro h <;> simp [save_master_history, h]

theorem length_limit_entries (m : Hist) (n : Nat) (now : Int) :
    (limit_entries m n now).length = min n m.length := by
  unfold limit_entries
  rw [List.length_take, List.length_mergeSort]

theorem remove_paths_nil (h : Hist) : remove_paths [] h = h := by
  simp [remove_paths]

/-- C1 amended: a save reads the on-disk content only for the size safety
guard; no merge is performed at save time, so whenever the write proceeds,
a path present only on disk (absent from the in-memory master) is absent
from the written snapshot. -/
theorem save_no_merge_disk_only_dropped (storedRead : Except Unit Hist) (master : Hist)
    (toRemove : List String) (n : Nat) (now : Int) (p : String)
    (hp : hlookup p master = none)
    (hw : ((limit_entries (remove_paths toRemove master) n now).length : ℚ) >
      7 / 10 * ((parsed_or_empty storedRead).length : ℚ)) :
    hlookup p (save_master_history storedRead master toRemove n now) = none := by
  rw [(save_master_history_cases storedRead master toRemove n now).1 hw]
  exact hlookup_limit_entries_none _ n now p (hlookup_remove_paths_none toRemove master p hp)

theorem save_drops_disk_only_entry_cex :
    save_master_history (Except.ok [("/b", ⟨0, 0, 1⟩)]) [("/a", ⟨0, 0, 1⟩)] [] 5 0 =
        [("/a", ⟨0, 0, 1⟩)] ∧
      hlookup "/b" [("/a", (⟨0, 0, 1⟩ : Entry))] = none := by
  constructor
  · have h := (save_master_history_cases (Except.ok [("/b", ⟨0, 0, 1⟩)])
      [("/a", ⟨0, 0, 1⟩)] [] 5 0).1
    have hlim : limit_entries (remove_paths [] [("/a", (⟨0, 0, 1⟩ : Entry))]) 5 0 =
        [("/a", ⟨0, 0, 1⟩)] := by
      rw [remove_paths_nil]
      norm_num [limit_entries, List.mergeSort]
    rw [hlim] at h
    apply h
    norm_num [parsed_or_empty]
  · decide

theorem save_no_merge_disk_only_dropped_witness :
    hlookup "/b" [("/a", (⟨0, 0, 1⟩ : Entry))] = none ∧
      hlookup "/b" (save_master_history (Except.ok [("/b", ⟨0, 0, 1⟩)])
        [("/a", ⟨0, 0, 1⟩)] [] 5 0) = none :=
  ⟨by decide,
    save_no_merge_disk_only_dropped (Except.ok [("/b", ⟨0, 0, 1⟩)]) [("/a", ⟨0, 0, 1⟩)]
      [] 5 0 "/b" (by decide)
      (by
        rw [remove_paths_nil, length_limit_entries]
        norm_num [parsed_or_empty])⟩

/-- C2 amended: the save is skipped (file left unchanged) precisely when the
entry count about to be written is at most 70% of the on-disk count; the
write proceeds only when the new count is strictly greater than 70% of the
on-disk count.  At exactly 70% — for example 7 entries over an existing file
of 10 — the write is skipped, unlike the claim's `less than 70%` cut-off.
Saving 60 entries over an existing file of 100 entries leaves the file
unchanged. -/
theorem save_guard_threshold (storedRead : Except Unit Hist) (master : Hist)
    (toRemove : List String) (n : Nat) (now : Int) :
    (((limit_entries (remove_paths toRemove master) n now).length : ℚ) ≤
        7 / 10 * ((parsed_or_empty storedRead).length : ℚ) →
      save_master_history storedRead master toRemove n now = parsed_or_empty storedRead)
    ∧ (((limit_entries (remove_paths toRemove master) n now).length : ℚ) >
        7 / 10 * ((parsed_or_empty storedRead).length : ℚ) →
      save_master_history storedRead master toRemove n now =
        limit_entries (remove_paths toRemove master) n now) := by
  constructor
  · intro hle
    exact (save_master_history_cases storedRead master toRemove n now).2 (not_lt.mpr hle)
  · exact (save_master_history_cases storedRead master toRemove n now).1

/-- Ten distinct on-disk entries, for the guard boundary instances. -/
def d10 : Hist := (List.range 10).map (fun i => ("d" ++ toString i, ⟨0, 0, 1⟩))

/-- Seven distinct in-memory entries, for the guard boundary instances. -/
def m7 : Hist := (List.range 7).map (fun i => ("m" ++ toString i, ⟨0, 0, 1⟩))

theorem save_guard_boundary_cex :
    ¬ (((limit_entries (remove_paths [] m7) 10 0).length : ℚ) <
        7 / 10 * ((parsed_or_empty (Except.ok d10)).length : ℚ)) ∧
      save_master_history (Except.ok d10) m7 [] 10 0 = d10 ∧
      d10 ≠ limit_entries (remove_paths [] m7) 10 0 := by
  have hlen : (limit_entries (remove_paths [] m7) 10 0).length = 7 := by
    rw [remove_paths_nil, length_limit_entries]
    simp [m7]
  refine ⟨?_, ?_, ?_⟩
  · rw [hlen]
    norm_num [parsed_or_empty, d10]
  · apply (save_master_history_cases (Except.ok d10) m7 [] 10 0).2
    rw [hlen]
    norm_num [parsed_or_empty, d10]
  · intro heq
    have hc := congrArg List.length heq
    rw [hlen] at hc
    simp [d10] at hc

/-- One hundred distinct on-disk entries, for the 60-over-100 scenario. -/
def d100 : Hist := (List.range 100).map (fun i => ("d" ++ toString i, ⟨0, 0, 1⟩))

/-- Sixty distinct in-memory entries, for the 60-over-100 scenario. -/
def m60 : Hist := (List.range 60).map (fun i => ("m" ++ toString i, ⟨0, 0, 1⟩))

theorem save_guard_threshold_witness :
    d100.length = 100 ∧ m60.length = 60 ∧
      save_master_history (Except.ok d100) m60 [] 100 0 = d100 :=
  ⟨by simp [d100], by simp [m60],
    (save_guard_threshold (Except.ok d100) m60 [] 100 0).1 (by
      rw [remove_paths_nil, length_limit_entries]
      norm_num [m60, parsed_or_empty, d100])⟩

/-- C6 amended: when the panel result set is empty the normalization loop
performs no division and yields the empty list; but when the result set is
nonempty with total score zero there is no guard: the first division raises
`ZeroDivisionError`. -/
theorem score_frac_zero_total_behavior (scores : List ℚ) :
    (scores = [] → assign_score_fracs scores = Except.ok [])
    ∧ (scores ≠ [] → scores.sum = 0 → assign_score_fracs scores = Except.error ()) := by
  constructor
  · rintro rfl
    rfl
  · intro hne hsum
    obtain ⟨s, t, rfl⟩ := List.exists_cons_of_ne_nil hne
    simp [assign_score_fracs, assign_loop, hsum, pydiv]

theorem score_frac_zero_total_cex :
    ([(0 : ℚ)] ≠ []) ∧ ([(0 : ℚ)]).sum = 0 ∧
      assign_score_fracs [0] = Except.error () := by
  refine ⟨by simp, by simp, ?_⟩
  norm_num [assign_score_fracs, assign_loop, pydiv]

theorem score_frac_zero_total_behavior_witness :
    assign_score_fracs [] = Except.ok [] ∧
      ([(0 : ℚ), 0]).sum = 0 ∧ assign_score_fracs [0, 0] = Except.error () :=
  ⟨(score_frac_zero_total_behavior []).1 rfl,
    by simp,
    (score_frac_zero_total_behavior [0, 0]).2 (by simp) (by simp)⟩

example : hlookup "/a" [("/a", ⟨1, 2, 3⟩)] = some ⟨1, 2, 3⟩ := by decide
example : recency_score 100 = 6 := by
  norm_num [recency_score, SECONDS_PER_MINUTE, SECONDS_PER_HOUR]
example : frecency 100 5 = 3 / 10 := by
  norm_num [frecency, recency_score, SECONDS_PER_MINUTE, SECONDS_PER_HOUR]
example : entry_frecency ⟨0, 99990, 5⟩ 100000 = 3 / 10 := by
  norm_num [entry_frecency, frecency, recency_score, SECONDS_PER_MINUTE, SECONDS_PER_HOUR]
example :
    merge_histories [("/a", ⟨1000, 1000, 1⟩)] [("/a", ⟨1000, 2000, 3⟩)] =
      [("/a", ⟨1000, 2000, 3⟩)] := by decide
example : assign_score_fracs [0] = .error () := by
  norm_num [assign_score_fracs, assign_loop, pydiv]
example : assign_score_fracs [] = .ok [] := rfl
example : limit_entries [("/a", ⟨0, 0, 1⟩), ("/b", ⟨0, 0, 5⟩)] 1 200 = [("/b", ⟨0, 0, 5⟩)] := by
  norm_num [limit_entries, List.mergeSort, entry_frecency, frecency, recency_score,
    SECONDS_PER_MINUTE, SECONDS_PER_HOUR, List.merge]
